import Mathlib

/-!
# asset_packager: asset index and archive builder

A shallow embedding of `packager.go` (package `asset_packager`).

* Go strings are Lean `String`s, byte slices are lists of byte values.
* A Go `map[string]bool` is a function `String → Option Bool` (`none`: the key is absent).
* Calls into the operating system and into the Go libraries (`os`, `path/filepath`,
  `encoding/json`, `archive/tar`, `fsnotify`) are the fields of `OS` and the `TarWriter`
  argument; a call that returns `(value, error)` in Go returns a pair whose second
  component is `none` for a nil error.
* `path.Join` and `path.Clean` decide the archive entry names, so they are written out
  after the Go standard library (`path/path.go`).
* The goroutine that consumes `Watcher.Events` is the fold `runEvents` over the events in
  the order the channel delivers them.
-/

namespace AssetPackager

/-! ## Data model -/

/-- A byte slice: the list of its byte values. -/
abbrev Bytes := List Nat

/-- The manifest, `type Meta struct` (lines 18-21). -/
structure Meta where
  ResourcesRequested : List String
  ResourcesFailed : List String
deriving DecidableEq, Repr

/-- A Go `map[string]bool`: `none` for a key that is not in the map. -/
abbrev StringBoolMap := String → Option Bool

/-- The empty map literal `map[string]bool{}`. -/
def mapEmpty : StringBoolMap := fun _ => none

/-- The assignment `m[k] = v`. -/
def mapSet (m : StringBoolMap) (k : String) (v : Bool) : StringBoolMap :=
  fun k' => if k' = k then some v else m k'

/-- The read `m[k]`: the zero value `false` when `k` is not a key. -/
def mapGet (m : StringBoolMap) (k : String) : Bool := (m k).getD false

/-- Whether `k` is a key of `m`. -/
def mapHas (m : StringBoolMap) (k : String) : Bool := (m k).isSome

/-- The part of `fsnotify.Watcher` the code uses: the paths handed to `Watcher.Add`. -/
structure Watcher where
  Watched : List String
deriving DecidableEq, Repr

/-- The index, `type Packager struct` (lines 23-27). -/
structure Packager where
  AssetDirectory : String
  AssetMap : StringBoolMap
  Watcher : Watcher

/-- What the code reads of an `os.FileInfo`. -/
structure FileInfo where
  IsDir : Bool
  Mode : Nat
  Size : Int
deriving DecidableEq, Repr

/-- The fields of `tar.Header` that `Package` sets. -/
structure Header where
  Name : String
  Mode : Int
  Size : Int
deriving DecidableEq, Repr

/-- A call on the archive layer `tWriter`: `WriteHeader(hdr)`, `io.Copy(tWriter, file)` with
the bytes of `file`, or `Write(b)`. -/
inductive TarOp where
  | WriteHeader (hdr : Header)
  | Copy (file : Bytes)
  | Write (b : Bytes)
deriving DecidableEq, Repr

/-- A call made on the archive layer together with the error it returned (`none`: nil). -/
structure Call where
  op : TarOp
  err : Option String
deriving DecidableEq, Repr

/-- The archive layer (tar over gzip over `dst`): the error it returns for a call, given the
calls made on it so far. -/
abbrev TarWriter := List Call → TarOp → Option String

/-- A filesystem event, `fsnotify.Event`: `Op` is a `uint32` bit set. -/
structure Event where
  Name : String
  Op : Nat
deriving DecidableEq, Repr

/-- The constant `fsnotify.Create`, `1 << 0`. -/
def Create : Nat := 1
/-- The constant `fsnotify.Write`, `1 << 1`. -/
def Write : Nat := 2
/-- The constant `fsnotify.Remove`, `1 << 2`. -/
def Remove : Nat := 4
/-- The constant `fsnotify.Rename`, `1 << 3`. -/
def Rename : Nat := 8
/-- The constant `fsnotify.Chmod`, `1 << 4`. -/
def Chmod : Nat := 16

/-- The operating system and library calls of `packager.go`.
`Rel` is `filepath.Rel` with its error dropped, as at lines 48 and 57; `Walk root` is the
sequence of `(path, info)` pairs `filepath.Walk` hands to its callback; `NewWatcher` is the
error of `fsnotify.NewWatcher`. -/
structure OS where
  Abs : String → String
  Rel : String → String → String
  Stat : String → FileInfo × Option String
  Open : String → Bytes × Option String
  Walk : String → List (String × FileInfo)
  NewWatcher : Option String
  MarshalIndent : Meta → Bytes × Option String
  Unmarshal : Bytes → List String × Option String

/-! ## `path.Clean` and `path.Join` (Go standard library) -/

/-- The inner loop of the `..` case of `path.Clean`,
`for out.w > dotdot && out.index(out.w) != '/' { out.w-- }`, started at `w`. -/
def backtrack (out : List Char) (dotdot : Nat) : Nat → Nat
  | 0 => 0
  | w + 1 =>
    if dotdot < w + 1 ∧ out.get? (w + 1) ≠ some '/' then backtrack out dotdot w else w + 1

/-- The main loop `for r < n` of `path.Clean`: `rest` is `path[r:]`, `out` the buffer
`out.buf[:out.w]`. Every iteration consumes at least one character of `rest`, so `fuel`
equal to the length of the path is never exhausted (`cleanLoop_fuel`). -/
def cleanLoop (rooted : Bool) : Nat → List Char → List Char → Nat → List Char
  | 0, _, out, _ => out
  | _ + 1, [], out, _ => out
  | fuel + 1, c :: rest, out, dotdot =>
    if c = '/' then
      cleanLoop rooted fuel rest out dotdot
    else if c = '.' ∧ (rest = [] ∨ rest.head? = some '/') then
      cleanLoop rooted fuel rest out dotdot
    else if c = '.' ∧ rest.head? = some '.' ∧ (rest.tail = [] ∨ rest.tail.head? = some '/') then
      if dotdot < out.length then
        cleanLoop rooted fuel rest.tail (out.take (backtrack out dotdot (out.length - 1))) dotdot
      else if !rooted then
        let out1 := if 0 < out.length then out ++ ['/'] else out
        let out2 := out1 ++ ['.', '.']
        cleanLoop rooted fuel rest.tail out2 out2.length
      else
        cleanLoop rooted fuel rest.tail out dotdot
    else
      let out1 :=
        if (rooted ∧ out.length ≠ 1) ∨ (!rooted ∧ out.length ≠ 0) then out ++ ['/'] else out
      cleanLoop rooted fuel ((c :: rest).dropWhile (· ≠ '/'))
        (out1 ++ (c :: rest).takeWhile (· ≠ '/')) dotdot

/-- Go's `path.Clean`: the shortest path name equivalent to `path` by lexical processing. -/
def Clean (path : String) : String :=
  if path = "" then "."
  else
    let s := path.toList
    let rooted : Bool := s.head? = some '/'
    let out :=
      if rooted then cleanLoop rooted s.length s.tail ['/'] 1
      else cleanLoop rooted s.length s [] 0
    if out.length = 0 then "." else String.mk out

/-- Go's `path.Join`: the elements from the first non-empty one on, joined with slashes,
then cleaned; the empty string when every element is empty. -/
def Join (elem : List String) : String :=
  match elem.dropWhile (· = "") with
  | [] => ""
  | rest => Clean ("/".intercalate rest)

/-- Go's `filepath.Join` on a system whose separator is the slash. -/
def filepathJoin (elem : List String) : String := Join elem

/-! ## The index: `New` and the event loop -/

/-- The callback `New` passes to `filepath.Walk` (lines 47-54), applied to one visited
entry. -/
def walkFn (os : OS) (asset_dir : String) (toret : Packager) (entry : String × FileInfo) :
    Packager :=
  let asset := os.Rel asset_dir entry.1
  let toret := { toret with Watcher := ⟨toret.Watcher.Watched ++ [entry.1]⟩ }
  if !entry.2.IsDir then
    { toret with AssetMap := mapSet toret.AssetMap asset true }
  else
    toret

/-- The constructor `New` (lines 29-73), up to the start of the two goroutines. -/
def New (os : OS) (asset_dir : String) : Except String Packager :=
  let asset_dir := os.Abs asset_dir
  let info := (os.Stat asset_dir).1
  let err := (os.Stat asset_dir).2
  match err with
  | some e => .error e
  | none =>
    if !info.IsDir then
      .error (asset_dir ++ " is not a directory")
    else
      match os.NewWatcher with
      | some e => .error e
      | none =>
        let toret : Packager :=
          { AssetDirectory := asset_dir, AssetMap := mapEmpty, Watcher := ⟨[]⟩ }
        .ok ((os.Walk asset_dir).foldl (walkFn os asset_dir) toret)

/-- One iteration of the loop over `p.Watcher.Events` (lines 56-64). -/
def applyEvent (os : OS) (p : Packager) (event : Event) : Packager :=
  let assetname := os.Rel p.AssetDirectory event.Name
  if event.Op = Create then
    { p with AssetMap := mapSet p.AssetMap assetname true }
  else if event.Op = Remove ∨ event.Op = Rename then
    { p with AssetMap := mapSet p.AssetMap assetname false }
  else
    p

/-- The event-consuming goroutine: the events are applied in the order received. -/
def runEvents (os : OS) (p : Packager) (events : List Event) : Packager :=
  events.foldl (applyEvent os) p

/-- The query `p.AssetMap[asset]`. -/
def AssetExists (p : Packager) (asset : String) : Bool := mapGet p.AssetMap asset

/-! ## The archive builder: `Package` -/

/-- The state of one `Package` call: the manifest so far, the calls made on the archive
layer, the fatal error when `log.Fatalln` has ended the process, and whether the deferred
`Close` calls have run. -/
structure Build where
  manifest : Meta
  log : List Call
  fatal : Option String
  closed : Bool
deriving DecidableEq, Repr

/-- The text `log.Fatalln` prints for an error value. -/
def errText (e : Option String) : String := e.getD "<nil>"

/-- The statement `meta.ResourcesFailed = append(meta.ResourcesFailed, filename)`. -/
def Build.failed (b : Build) (filename : String) : Build :=
  { b with manifest := { b.manifest with
      ResourcesFailed := b.manifest.ResourcesFailed ++ [filename] } }

/-- The loop `for _, filename := range(filenames)` of `Package` (lines 87-119).
The two tests after `WriteHeader` and `io.Copy` (lines 112 and 115) read `err`, the error
of `os.Open`, as the source does. -/
def packageLoop (os : OS) (tWriter : TarWriter) (p : Packager) (pfx : String) :
    List String → Build → Build
  | [], b => b
  | filename :: rest, b =>
    let b := { b with manifest := { b.manifest with
      ResourcesRequested := b.manifest.ResourcesRequested ++ [filename] } }
    if !(mapGet p.AssetMap filename) then
      packageLoop os tWriter p pfx rest (b.failed filename)
    else
      let abs_filename := filepathJoin [p.AssetDirectory, filename]
      let info := (os.Stat abs_filename).1
      let err := (os.Stat abs_filename).2
      if err ≠ none then
        packageLoop os tWriter p pfx rest (b.failed filename)
      else
        let thdr : Header :=
          { Name := Join [pfx, filename], Mode := info.Mode, Size := info.Size }
        let file := (os.Open abs_filename).1
        let err := (os.Open abs_filename).2
        if err ≠ none then
          packageLoop os tWriter p pfx rest (b.failed filename)
        else
          let tar_err := tWriter b.log (.WriteHeader thdr)
          let b := { b with log := b.log ++ [Call.mk (.WriteHeader thdr) tar_err] }
          if err ≠ none then
            { b with fatal := some (errText tar_err) }
          else
            let cp_err := tWriter b.log (.Copy file)
            let b := { b with log := b.log ++ [Call.mk (.Copy file) cp_err] }
            if err ≠ none then
              { b with fatal := some (errText cp_err) }
            else
              packageLoop os tWriter p pfx rest b

/-- The method `Package` (lines 75-136). A build with `fatal = some _` ended in
`log.Fatalln`, which exits the process without running the deferred `Close` calls. -/
def Package (os : OS) (tWriter : TarWriter) (p : Packager) (pfx : String)
    (filenames : List String) : Build :=
  let b := packageLoop os tWriter p pfx filenames
    { manifest := { ResourcesRequested := [], ResourcesFailed := [] },
      log := [], fatal := none, closed := false }
  if b.fatal ≠ none then b
  else
    let mbytes := (os.MarshalIndent b.manifest).1
    let err := (os.MarshalIndent b.manifest).2
    if err ≠ none then
      { b with fatal := some ("Meta to JSON: " ++ errText err) }
    else
      let mhdr : Header :=
        { Name := Join [pfx, "metadata.json"], Mode := 0o600, Size := mbytes.length }
      let hd_err := tWriter b.log (.WriteHeader mhdr)
      let b := { b with log := b.log ++ [Call.mk (.WriteHeader mhdr) hd_err] }
      if hd_err ≠ none then
        { b with fatal := some ("Meta to JSON: " ++ errText hd_err) }
      else
        let w_err := tWriter b.log (.Write mbytes)
        let b := { b with log := b.log ++ [Call.mk (.Write mbytes) w_err] }
        if w_err ≠ none then
          { b with fatal := some ("Meta to JSON: " ++ errText w_err) }
        else
          { b with closed := true }

/-- The handler `HttpPackage` (lines 138-154): `body` is the result of reading the request
body; `none` when the handler returns before calling `Package`. -/
def HttpPackage (os : OS) (tWriter : TarWriter) (p : Packager)
    (body : Bytes × Option String) : Option Build :=
  if body.2 ≠ none then none
  else
    let assets := (os.Unmarshal body.1).1
    let err := (os.Unmarshal body.1).2
    if err ≠ none then none
    else some (Package os tWriter p "" assets)

/-! ## Definitions used to state the properties -/

/-- Whether `e` is a create, remove or rename event for the relative path `x`. -/
def touches (os : OS) (dir x : String) (e : Event) : Bool :=
  decide (os.Rel dir e.Name = x ∧ (e.Op = Create ∨ e.Op = Remove ∨ e.Op = Rename))

/-- Whether `Package` cannot include `filename`: it is not indexed as true, or the stat of
its absolute path fails, or the open fails. -/
def fails (os : OS) (p : Packager) (filename : String) : Bool :=
  !(mapGet p.AssetMap filename) ||
  decide ((os.Stat (filepathJoin [p.AssetDirectory, filename])).2 ≠ none) ||
  decide ((os.Open (filepathJoin [p.AssetDirectory, filename])).2 ≠ none)

/-- Whether `filename` is indexed as true and its stat and open both succeed. -/
def included (os : OS) (p : Packager) (filename : String) : Bool :=
  mapGet p.AssetMap filename &&
  decide ((os.Stat (filepathJoin [p.AssetDirectory, filename])).2 = none) &&
  decide ((os.Open (filepathJoin [p.AssetDirectory, filename])).2 = none)

/-- The header of the file entry of `filename`: the joined name, and the mode and size of
the stat result. -/
def fileHeader (os : OS) (p : Packager) (pfx filename : String) : Header :=
  { Name := Join [pfx, filename],
    Mode := (os.Stat (filepathJoin [p.AssetDirectory, filename])).1.Mode,
    Size := (os.Stat (filepathJoin [p.AssetDirectory, filename])).1.Size }

/-- The two archive calls that write the file entry of `filename`: its header, then the
copy of the opened file. -/
def fileEntry (os : OS) (p : Packager) (pfx filename : String) : List TarOp :=
  [.WriteHeader (fileHeader os p pfx filename),
   .Copy (os.Open (filepathJoin [p.AssetDirectory, filename])).1]

/-- The header of the metadata entry for the serialized manifest `mbytes`. -/
def metadataHeader (pfx : String) (mbytes : Bytes) : Header :=
  { Name := Join [pfx, "metadata.json"], Mode := 0o600, Size := mbytes.length }

/-- The two archive calls that write the metadata entry for the serialized manifest
`mbytes`. -/
def metadataEntry (pfx : String) (mbytes : Bytes) : List TarOp :=
  [.WriteHeader (metadataHeader pfx mbytes), .Write mbytes]

/-- The file entries of an archive: every header written without error and followed by a
copy of a file body written without error. -/
def fileEntries : List Call → List (Header × Bytes)
  | [] => []
  | c :: rest =>
    match c, rest.head? with
    | ⟨.WriteHeader hdr, none⟩, some ⟨.Copy file, none⟩ => (hdr, file) :: fileEntries rest
    | _, _ => fileEntries rest

/-- The names of the headers handed to the archive layer, in order. -/
def headerNames (log : List Call) : List String :=
  log.filterMap fun c =>
    match c.op with
    | .WriteHeader hdr => some hdr.Name
    | _ => none

/-- The state in which `Package` enters its loop: an empty manifest and no archive call. -/
def emptyBuild : Build :=
  { manifest := { ResourcesRequested := [], ResourcesFailed := [] },
    log := [], fatal := none, closed := false }

/-! ## Concrete inputs for the examples -/

/-- An instance of `filepath.Rel` for a target that is the base or lies under it: `.` for
the base itself, else the target without the base and the slash after it. -/
def relUnder (base targ : String) : String :=
  if targ = base then "." else String.mk (targ.toList.drop (base.length + 1))

/-- A serializer for the examples: the requested paths and the failed paths, one per line,
the two lists separated by a line `--`. -/
def linesMarshal (m : Meta) : Bytes × Option String :=
  (("\n".intercalate (m.ResourcesRequested ++ "--" :: m.ResourcesFailed)).toList.map Char.toNat,
    none)

/-- A system whose root `/r` holds the files `a` (one byte) and `b/c` (two bytes); a
request body that is not empty decodes to the request `["a"]`. -/
def demoOS : OS where
  Abs := fun s => s
  Rel := relUnder
  Stat := fun s =>
    if s = "/r" then (⟨true, 0o755, 4096⟩, none)
    else if s = "/r/a" then (⟨false, 0o644, 1⟩, none)
    else if s = "/r/b" then (⟨true, 0o755, 4096⟩, none)
    else if s = "/r/b/c" then (⟨false, 0o644, 2⟩, none)
    else (⟨false, 0, 0⟩, some "no such file or directory")
  Open := fun s =>
    if s = "/r/a" then ([97], none)
    else if s = "/r/b/c" then ([98, 99], none)
    else ([], some "no such file or directory")
  Walk := fun _ =>
    [("/r", ⟨true, 0o755, 4096⟩), ("/r/a", ⟨false, 0o644, 1⟩),
     ("/r/b", ⟨true, 0o755, 4096⟩), ("/r/b/c", ⟨false, 0o644, 2⟩)]
  NewWatcher := none
  MarshalIndent := linesMarshal
  Unmarshal := fun body =>
    if body = [] then ([], some "unexpected end of JSON input") else (["a"], none)

/-- The system `demoOS` after `a` has grown to two bytes between its stat and its open. -/
def grownOS : OS :=
  { demoOS with
    Open := fun s =>
      if s = "/r/a" then ([97, 97], none)
      else if s = "/r/b/c" then ([98, 99], none)
      else ([], some "no such file or directory") }

/-- The index over `demoOS`: `a` and `b/c` are present. -/
def demoIndex : Packager :=
  { AssetDirectory := "/r",
    AssetMap := mapSet (mapSet mapEmpty "a" true) "b/c" true,
    Watcher := ⟨["/r", "/r/a", "/r/b", "/r/b/c"]⟩ }

/-- An archive layer on which no call fails. -/
def okWriter : TarWriter := fun _ _ => none

/-- An archive layer that rejects the first call made on it and accepts the later ones. -/
def firstCallFails : TarWriter := fun log _ =>
  if log = [] then some "archive/tar: header rejected" else none

/-- An archive layer that rejects a body longer than the size in the header written just
before it, as `archive/tar` does, and accepts every other call. -/
def sizeChecked : TarWriter := fun log op =>
  match op, log.getLast? with
  | .Copy file, some ⟨.WriteHeader hdr, _⟩ =>
    if hdr.Size < file.length then some "archive/tar: write too long" else none
  | _, _ => none

/-- The elements of a path: the runs of characters between its slashes. -/
def splitSlash : List Char → List (List Char)
  | [] => [[]]
  | c :: cs =>
    if c = '/' then [] :: splitSlash cs
    else
      match splitSlash cs with
      | [] => [[c]]
      | seg :: segs => (c :: seg) :: segs

/-- The elements joined with a slash between neighbours. -/
def joinSlash : List (List Char) → List Char
  | [] => []
  | seg :: rest =>
    match rest with
    | [] => seg
    | _ :: _ => seg ++ '/' :: joinSlash rest

/-- A plain path element: not empty, not `.` and not `..`. -/
def plainElem (seg : List Char) : Bool :=
  decide (seg ≠ [] ∧ seg ≠ ['.'] ∧ seg ≠ ['.', '.'])

/-- A plain relative path: every element between its slashes is plain, so it is not empty,
has no leading, trailing or doubled slash and no `.` or `..` element. -/
def plainPath (s : String) : Bool := (splitSlash s.toList).all plainElem

/-- The index the walk of `New` builds over `demoOS`. -/
def walkedIndex : Packager :=
  (demoOS.Walk "/r").foldl (walkFn demoOS "/r")
    { AssetDirectory := "/r", AssetMap := mapEmpty, Watcher := ⟨[]⟩ }

/-! ## The event loop -/

theorem applyEvent_dir (os : OS) (p : Packager) (e : Event) :
    (applyEvent os p e).AssetDirectory = p.AssetDirectory := by
  unfold applyEvent
  by_cases h1 : e.Op = Create
  · simp [h1]
  · by_cases h2 : e.Op = Remove ∨ e.Op = Rename
    · simp [h1, h2]
    · simp [h1, h2]

theorem runEvents_dir (os : OS) (events : List Event) :
    ∀ p : Packager, (runEvents os p events).AssetDirectory = p.AssetDirectory := by
  induction events with
  | nil => intro p; rfl
  | cons e es ih =>
    intro p
    show (runEvents os (applyEvent os p e) es).AssetDirectory = p.AssetDirectory
    rw [ih, applyEvent_dir]

theorem runEvents_snoc (os : OS) (p : Packager) (events : List Event) (e : Event) :
    runEvents os p (events ++ [e]) = applyEvent os (runEvents os p events) e := by
  simp [runEvents, List.foldl_append]

/-- The map after one event, key by key. -/
theorem applyEvent_map (os : OS) (p : Packager) (e : Event) (k : String) :
    (applyEvent os p e).AssetMap k =
      if os.Rel p.AssetDirectory e.Name = k ∧ (e.Op = Create ∨ e.Op = Remove ∨ e.Op = Rename)
      then some (decide (e.Op = Create)) else p.AssetMap k := by
  unfold applyEvent
  by_cases h1 : e.Op = Create
  · by_cases hk : os.Rel p.AssetDirectory e.Name = k
    · simp [h1, hk, mapSet]
    · have hk' : ¬ k = os.Rel p.AssetDirectory e.Name := fun h => hk h.symm
      simp [h1, hk, hk', mapSet]
  · by_cases h2 : e.Op = Remove ∨ e.Op = Rename
    · by_cases hk : os.Rel p.AssetDirectory e.Name = k
      · simp [h1, h2, hk, mapSet]
      · have hk' : ¬ k = os.Rel p.AssetDirectory e.Name := fun h => hk h.symm
        simp [h1, h2, hk, hk', mapSet]
    · have h3 : ¬ (e.Op = Create ∨ e.Op = Remove ∨ e.Op = Rename) := by
        rintro (h | h)
        · exact h1 h
        · exact h2 h
      simp [h1, h2, h3]

/-- An event whose operation is none of the three compared values returns the index as it
was. -/
theorem applyEvent_other (os : OS) (p : Packager) (e : Event)
    (h1 : e.Op ≠ Create) (h2 : e.Op ≠ Remove) (h3 : e.Op ≠ Rename) :
    applyEvent os p e = p := by
  unfold applyEvent
  simp [h1, h2, h3]

theorem AssetExists_applyEvent (os : OS) (p : Packager) (e : Event) (x : String) :
    AssetExists (applyEvent os p e) x =
      if touches os p.AssetDirectory x e then decide (e.Op = Create) else AssetExists p x := by
  unfold AssetExists mapGet touches
  rw [applyEvent_map]
  by_cases h : os.Rel p.AssetDirectory e.Name = x ∧ (e.Op = Create ∨ e.Op = Remove ∨ e.Op = Rename)
  · simp [h]
  · simp [h]

theorem mapHas_applyEvent (os : OS) (p : Packager) (e : Event) (k : String)
    (hk : mapHas p.AssetMap k = true) : mapHas (applyEvent os p e).AssetMap k = true := by
  unfold mapHas at *
  rw [applyEvent_map]
  split
  · rfl
  · exact hk

theorem mapHas_runEvents (os : OS) (events : List Event) :
    ∀ (p : Packager) (k : String), mapHas p.AssetMap k = true →
      mapHas (runEvents os p events).AssetMap k = true := by
  induction events with
  | nil => intro p k hk; exact hk
  | cons e es ih =>
    intro p k hk
    exact ih (applyEvent os p e) k (mapHas_applyEvent os p e k hk)

/-- C6: applying one filesystem event. An event whose operation is `Create` sets the value
of the event's relative path to true; one whose operation is `Remove` or `Rename` sets it to
false; an event of any other kind leaves the index, and so the whole map, unchanged; and in
every case the value of every key other than the event's relative path is unchanged. -/
theorem applyEvent_presence (os : OS) (p : Packager) (event : Event) :
    (event.Op = Create →
      (applyEvent os p event).AssetMap (os.Rel p.AssetDirectory event.Name) = some true) ∧
    (event.Op = Remove ∨ event.Op = Rename →
      (applyEvent os p event).AssetMap (os.Rel p.AssetDirectory event.Name) = some false) ∧
    (event.Op ≠ Create → event.Op ≠ Remove → event.Op ≠ Rename →
      applyEvent os p event = p) ∧
    (∀ k : String, k ≠ os.Rel p.AssetDirectory event.Name →
      (applyEvent os p event).AssetMap k = p.AssetMap k) := by
  refine ⟨?_, ?_, applyEvent_other os p event, ?_⟩
  · intro h
    rw [applyEvent_map]
    simp [h]
  · intro h
    rw [applyEvent_map]
    have hc : event.Op ≠ Create := by
      rcases h with h | h <;> rw [h] <;> decide
    simp [h, hc]
  · intro k hk
    rw [applyEvent_map]
    have hk' : ¬ os.Rel p.AssetDirectory event.Name = k := fun h => hk h.symm
    simp [hk']

/-- C7: events are applied in the order received and the later one wins. After a sequence
of events the lookup of `x` is true iff the last create, remove or rename event for `x` in
the sequence is a create, or there is no such event and `x` looked up true initially. In
particular create, remove, create of one path ends with it true, and create, create, remove
ends with it false. -/
theorem runEvents_last_event_wins (os : OS) (p : Packager) (events : List Event) (x : String) :
    (AssetExists (runEvents os p events) x =
      match (events.filter (touches os p.AssetDirectory x)).getLast? with
      | some e => decide (e.Op = Create)
      | none => AssetExists p x) ∧
    (∀ name : String, AssetExists (runEvents os p
        [⟨name, Create⟩, ⟨name, Remove⟩, ⟨name, Create⟩]) (os.Rel p.AssetDirectory name) = true) ∧
    (∀ name : String, AssetExists (runEvents os p
        [⟨name, Create⟩, ⟨name, Create⟩, ⟨name, Remove⟩]) (os.Rel p.AssetDirectory name) = false) := by
  have main : ∀ evs : List Event, AssetExists (runEvents os p evs) x =
      match (evs.filter (touches os p.AssetDirectory x)).getLast? with
      | some e => decide (e.Op = Create)
      | none => AssetExists p x := by
    intro evs
    induction evs using List.reverseRecOn with
    | nil => rfl
    | append_singleton es e ih =>
      rw [runEvents_snoc, AssetExists_applyEvent, runEvents_dir, List.filter_append]
      by_cases ht : touches os p.AssetDirectory x e = true
      · simp [ht, List.filter_cons]
      · simp [ht, List.filter_cons, ih]
  refine ⟨main events, ?_, ?_⟩
  · intro name
    simp [runEvents, AssetExists_applyEvent, applyEvent_dir, touches, Create, Remove, Rename]
  · intro name
    simp [runEvents, AssetExists_applyEvent, applyEvent_dir, touches, Create, Remove, Rename]

/-- C8: entries are never deleted from the map, only marked absent. A key of the map before
a sequence of events is still a key after it, and when a remove or rename event for that
path follows, the path is a key with value false. -/
theorem keys_never_deleted (os : OS) (p : Packager) (events : List Event) (k : String)
    (hk : mapHas p.AssetMap k = true) :
    mapHas (runEvents os p events).AssetMap k = true ∧
    ∀ e : Event, e.Op = Remove ∨ e.Op = Rename → os.Rel p.AssetDirectory e.Name = k →
      (runEvents os p (events ++ [e])).AssetMap k = some false ∧
      mapHas (runEvents os p (events ++ [e])).AssetMap k = true := by
  refine ⟨mapHas_runEvents os events p k hk, ?_⟩
  intro e hop hname
  have hc : e.Op ≠ Create := by
    rcases hop with h | h <;> rw [h] <;> decide
  have hv : (runEvents os p (events ++ [e])).AssetMap k = some false := by
    rw [runEvents_snoc, applyEvent_map, runEvents_dir]
    simp [hname, hop, hc]
  exact ⟨hv, by simp [mapHas, hv]⟩

/-- C10: the event loop compares the operation for equality with `Create`, `Remove` and
`Rename`: an event changes the index only when its operation is exactly one of the three.
The operation `Create|Write` has the `Create` bit set and is none of them, so an event with
that operation leaves the index unchanged and the created path is not marked present. -/
theorem combined_op_leaves_map_unchanged (os : OS) (p : Packager) (name : String) :
    (∀ e : Event, applyEvent os p e ≠ p → e.Op = Create ∨ e.Op = Remove ∨ e.Op = Rename) ∧
    (Create ||| Write) &&& Create = Create ∧
    applyEvent os p ⟨name, Create ||| Write⟩ = p ∧
    (∀ k : String, AssetExists (applyEvent os p ⟨name, Create ||| Write⟩) k = AssetExists p k) ∧
    AssetExists (applyEvent os { p with AssetMap := mapEmpty } ⟨name, Create ||| Write⟩)
      (os.Rel p.AssetDirectory name) = false := by
  have h1 : Create ||| Write ≠ Create := by decide
  have h2 : Create ||| Write ≠ Remove := by decide
  have h3 : Create ||| Write ≠ Rename := by decide
  have hcw : applyEvent os p ⟨name, Create ||| Write⟩ = p :=
    applyEvent_other os p ⟨name, Create ||| Write⟩ h1 h2 h3
  refine ⟨?_, by decide, hcw, ?_, ?_⟩
  · intro e he
    by_contra hne
    push_neg at hne
    exact he (applyEvent_other os p e hne.1 hne.2.1 hne.2.2)
  · intro k
    rw [hcw]
  · rw [applyEvent_other os _ ⟨name, Create ||| Write⟩ h1 h2 h3]
    rfl

/-! ## The constructor -/

theorem walkFn_map (os : OS) (dir : String) (p : Packager) (e : String × FileInfo)
    (k : String) :
    (walkFn os dir p e).AssetMap k =
      if e.2.IsDir = false ∧ os.Rel dir e.1 = k then some true else p.AssetMap k := by
  unfold walkFn
  by_cases hd : e.2.IsDir = true
  · simp [hd]
  · have hd' : e.2.IsDir = false := by simpa using hd
    by_cases hk : os.Rel dir e.1 = k
    · simp [hd', hk, mapSet]
    · have hk' : ¬ k = os.Rel dir e.1 := fun h => hk h.symm
      simp [hd', hk, hk', mapSet]

/-- The map after the walk, key by key: true for the relative paths of the visited
non-directories, as before the walk for every other key. -/
theorem walk_map (os : OS) (dir : String) (entries : List (String × FileInfo)) :
    ∀ (p : Packager) (k : String),
      (entries.foldl (walkFn os dir) p).AssetMap k =
        if ∃ e ∈ entries, e.2.IsDir = false ∧ os.Rel dir e.1 = k then some true
        else p.AssetMap k := by
  induction entries with
  | nil => intro p k; simp
  | cons e es ih =>
    intro p k
    rw [List.foldl_cons, ih, walkFn_map]
    by_cases h1 : ∃ e' ∈ es, e'.2.IsDir = false ∧ os.Rel dir e'.1 = k
    · have h2 : ∃ e' ∈ e :: es, e'.2.IsDir = false ∧ os.Rel dir e'.1 = k := by
        obtain ⟨e', he', h⟩ := h1
        exact ⟨e', List.mem_cons_of_mem _ he', h⟩
      rw [if_pos h1, if_pos h2]
    · rw [if_neg h1]
      by_cases h3 : e.2.IsDir = false ∧ os.Rel dir e.1 = k
      · have h2 : ∃ e' ∈ e :: es, e'.2.IsDir = false ∧ os.Rel dir e'.1 = k :=
          ⟨e, List.mem_cons_self _ _, h3⟩
        rw [if_pos h3, if_pos h2]
      · have h2 : ¬ ∃ e' ∈ e :: es, e'.2.IsDir = false ∧ os.Rel dir e'.1 = k := by
          rintro ⟨e', he', h⟩
          rcases List.mem_cons.1 he' with rfl | hm
          · exact h3 h
          · exact h1 ⟨e', hm, h⟩
        rw [if_neg h3, if_neg h2]

/-- A successful `New` returns the index built by the walk over the absolute root. -/
theorem New_ok (os : OS) (asset_dir : String) (p : Packager) (h : New os asset_dir = .ok p) :
    p = (os.Walk (os.Abs asset_dir)).foldl (walkFn os (os.Abs asset_dir))
      { AssetDirectory := os.Abs asset_dir, AssetMap := mapEmpty, Watcher := ⟨[]⟩ } := by
  unfold New at h
  simp only at h
  split at h
  · cases h
  · split at h
    · cases h
    · split at h
      · cases h
      · injection h with h
        exact h.symm

/-- C9: after a successful construction the map has value true for exactly the
root-relative paths of the non-directory entries the walk visited, and no key has value
false; no visited directory (the root is one) is a key, given that the walk reports no path
both as a directory and as a non-directory; and the lookup of a path that is not the
relative path of a visited entry yields false. -/
theorem New_index (os : OS) (asset_dir : String) (p : Packager)
    (hnew : New os asset_dir = .ok p)
    (hkind : ∀ e₁ ∈ os.Walk (os.Abs asset_dir), ∀ e₂ ∈ os.Walk (os.Abs asset_dir),
      os.Rel (os.Abs asset_dir) e₁.1 = os.Rel (os.Abs asset_dir) e₂.1 →
        e₁.2.IsDir = e₂.2.IsDir) :
    (∀ k : String, p.AssetMap k = some true ↔
      ∃ e ∈ os.Walk (os.Abs asset_dir), e.2.IsDir = false ∧ os.Rel (os.Abs asset_dir) e.1 = k) ∧
    (∀ k : String, p.AssetMap k ≠ some false) ∧
    (∀ e ∈ os.Walk (os.Abs asset_dir), e.2.IsDir = true →
      p.AssetMap (os.Rel (os.Abs asset_dir) e.1) = none) ∧
    (∀ k : String, (∀ e ∈ os.Walk (os.Abs asset_dir), os.Rel (os.Abs asset_dir) e.1 ≠ k) →
      AssetExists p k = false) := by
  have hp := New_ok os asset_dir p hnew
  have hmap : ∀ k : String, p.AssetMap k =
      if ∃ e ∈ os.Walk (os.Abs asset_dir), e.2.IsDir = false ∧ os.Rel (os.Abs asset_dir) e.1 = k
      then some true else none := by
    intro k
    rw [hp, walk_map]
    rfl
  refine ⟨?_, ?_, ?_, ?_⟩
  · intro k
    rw [hmap]
    constructor
    · intro h
      by_contra hne
      rw [if_neg hne] at h
      cases h
    · intro h
      rw [if_pos h]
  · intro k
    rw [hmap]
    split <;> simp
  · intro e he hd
    rw [hmap]
    have hne : ¬ ∃ e' ∈ os.Walk (os.Abs asset_dir),
        e'.2.IsDir = false ∧ os.Rel (os.Abs asset_dir) e'.1 = os.Rel (os.Abs asset_dir) e.1 := by
      rintro ⟨e', he', hf, hrel⟩
      have := hkind e' he' e he hrel
      rw [hf, hd] at this
      cases this
    rw [if_neg hne]
  · intro k hk
    unfold AssetExists mapGet
    rw [hmap]
    have hne : ¬ ∃ e ∈ os.Walk (os.Abs asset_dir),
        e.2.IsDir = false ∧ os.Rel (os.Abs asset_dir) e.1 = k := by
      rintro ⟨e, he, _, hrel⟩
      exact hk e he hrel
    rw [if_neg hne]
    rfl

/-! ## `path.Clean` and `path.Join` -/

theorem splitSlash_ne_nil (s : List Char) : splitSlash s ≠ [] := by
  cases s with
  | nil => simp [splitSlash]
  | cons c cs =>
    rw [splitSlash]
    split
    · simp
    · split <;> simp

theorem joinSlash_cons_cons (a b : List Char) (rest : List (List Char)) :
    joinSlash (a :: b :: rest) = a ++ '/' :: joinSlash (b :: rest) := rfl

theorem joinSlash_splitSlash (s : List Char) : joinSlash (splitSlash s) = s := by
  induction s with
  | nil => rfl
  | cons c cs ih =>
    rw [splitSlash]
    by_cases hc : c = '/'
    · rw [if_pos hc]
      cases hs : splitSlash cs with
      | nil => exact absurd hs (splitSlash_ne_nil cs)
      | cons seg segs =>
        rw [joinSlash_cons_cons, ← hs, ih, hc]
        rfl
    · rw [if_neg hc]
      cases hs : splitSlash cs with
      | nil => exact absurd hs (splitSlash_ne_nil cs)
      | cons seg segs =>
        rw [hs] at ih
        simp only
        cases segs with
        | nil =>
          have : seg = cs := ih
          rw [this]
          rfl
        | cons seg2 segs2 =>
          rw [joinSlash_cons_cons] at ih ⊢
          rw [← ih]
          rfl

theorem noSlash_splitSlash (s : List Char) :
    ∀ seg ∈ splitSlash s, ∀ c ∈ seg, c ≠ '/' := by
  induction s with
  | nil =>
    intro seg hseg c hc
    simp [splitSlash] at hseg
    subst hseg
    cases hc
  | cons d ds ih =>
    intro seg hseg c hc
    rw [splitSlash] at hseg
    by_cases hd : d = '/'
    · rw [if_pos hd] at hseg
      rcases List.mem_cons.1 hseg with h | h
      · subst h; cases hc
      · exact ih seg h c hc
    · rw [if_neg hd] at hseg
      cases hs : splitSlash ds with
      | nil => exact absurd hs (splitSlash_ne_nil ds)
      | cons seg1 segs =>
        rw [hs] at hseg ih
        simp only at hseg
        rcases List.mem_cons.1 hseg with h | h
        · subst h
          rcases List.mem_cons.1 hc with h' | h'
          · rw [h']; exact hd
          · exact ih seg1 (List.mem_cons_self _ _) c h'
        · exact ih seg (List.mem_cons_of_mem _ h) c hc

theorem splitSlash_append (a b : List Char) :
    splitSlash (a ++ '/' :: b) = splitSlash a ++ splitSlash b := by
  induction a with
  | nil => simp [splitSlash]
  | cons c cs ih =>
    rw [List.cons_append, splitSlash, splitSlash, ih]
    by_cases hc : c = '/'
    · simp [hc]
    · rw [if_neg hc, if_neg hc]
      cases hs : splitSlash cs with
      | nil => exact absurd hs (splitSlash_ne_nil cs)
      | cons seg segs => rfl

theorem takeWhile_append_stop {α : Type} (q : α → Bool) (l r : List α)
    (hl : ∀ x ∈ l, q x = true) (hr : r = [] ∨ ∃ x xs, r = x :: xs ∧ q x = false) :
    (l ++ r).takeWhile q = l := by
  induction l with
  | nil =>
    rcases hr with h | ⟨x, xs, h, hx⟩
    · rw [h]; rfl
    · rw [h, List.nil_append, List.takeWhile_cons, hx]
      rfl
  | cons y ys ih =>
    rw [List.cons_append, List.takeWhile_cons, hl y (List.mem_cons_self _ _),
      ih (fun x hx => hl x (List.mem_cons_of_mem _ hx))]
    rfl

theorem dropWhile_append_stop {α : Type} (q : α → Bool) (l r : List α)
    (hl : ∀ x ∈ l, q x = true) (hr : r = [] ∨ ∃ x xs, r = x :: xs ∧ q x = false) :
    (l ++ r).dropWhile q = r := by
  induction l with
  | nil =>
    rcases hr with h | ⟨x, xs, h, hx⟩
    · rw [h]; rfl
    · rw [h, List.nil_append, List.dropWhile_cons, hx]
      rfl
  | cons y ys ih =>
    rw [List.cons_append, List.dropWhile_cons, hl y (List.mem_cons_self _ _)]
    exact ih (fun x hx => hl x (List.mem_cons_of_mem _ hx))

/-- One iteration of the loop of `path.Clean` at the start of a plain element: the element
is appended to the buffer, after a slash when the buffer is not empty. -/
theorem cleanLoop_elem (fuel : Nat) (seg r out : List Char) (dotdot : Nat)
    (hplain : plainElem seg = true) (hns : ∀ c ∈ seg, c ≠ '/')
    (hr : r = [] ∨ r.head? = some '/') :
    cleanLoop false (fuel + 1) (seg ++ r) out dotdot =
      cleanLoop false fuel r ((if out.length ≠ 0 then out ++ ['/'] else out) ++ seg) dotdot := by
  simp only [plainElem, decide_eq_true_eq] at hplain
  obtain ⟨hne, h1, h2⟩ := hplain
  cases seg with
  | nil => exact absurd rfl hne
  | cons c seg' =>
    have hc : c ≠ '/' := hns c (List.mem_cons_self _ _)
    have hns' : ∀ d ∈ seg', d ≠ '/' := fun d hd => hns d (List.mem_cons_of_mem _ hd)
    have hstop : r = [] ∨ ∃ x xs, r = x :: xs ∧ (fun d : Char => decide (d ≠ '/')) x = false := by
      rcases hr with h | h
      · exact Or.inl h
      · cases r with
        | nil => exact Or.inl rfl
        | cons x xs =>
          right
          refine ⟨x, xs, rfl, ?_⟩
          simp only [List.head?_cons, Option.some.injEq] at h
          simp [h]
    have hall : ∀ d ∈ c :: seg', (fun d : Char => decide (d ≠ '/')) d = true := by
      intro d hd
      simp [hns d hd]
    have htake : (c :: (seg' ++ r)).takeWhile (fun d : Char => decide (d ≠ '/')) = c :: seg' :=
      takeWhile_append_stop _ (c :: seg') r hall hstop
    have hdrop : (c :: (seg' ++ r)).dropWhile (fun d : Char => decide (d ≠ '/')) = r :=
      dropWhile_append_stop _ (c :: seg') r hall hstop
    have hc2 : ¬ (c = '.' ∧ (seg' ++ r = [] ∨ (seg' ++ r).head? = some '/')) := by
      rintro ⟨hdot, hcase⟩
      cases seg' with
      | nil => exact h1 (by rw [hdot])
      | cons d ds =>
        rcases hcase with h | h
        · cases h
        · simp at h
          exact hns' d (List.mem_cons_self _ _) h
    have hc3 : ¬ (c = '.' ∧ (seg' ++ r).head? = some '.' ∧
        ((seg' ++ r).tail = [] ∨ (seg' ++ r).tail.head? = some '/')) := by
      rintro ⟨hdot, hhead, hcase⟩
      cases seg' with
      | nil =>
        rcases hr with h | h
        · rw [h] at hhead; cases hhead
        · simp only [List.nil_append] at hhead
          rw [h] at hhead
          cases hhead
      | cons d ds =>
        simp at hhead
        cases ds with
        | nil => exact h2 (by rw [hdot, hhead])
        | cons e es =>
          rcases hcase with h | h
          · cases h
          · simp at h
            exact hns' e (List.mem_cons_of_mem _ (List.mem_cons_self _ _)) h
    rw [List.cons_append, cleanLoop]
    rw [if_neg hc, if_neg hc2, if_neg hc3, htake, hdrop]
    simp

/-- On a path made of plain elements the loop of `path.Clean` copies the path to the
buffer, and the fuel of the path length is enough. -/
theorem cleanLoop_plain (segs : List (List Char)) :
    segs ≠ [] → (∀ seg ∈ segs, plainElem seg = true) → (∀ seg ∈ segs, ∀ c ∈ seg, c ≠ '/') →
    ∀ (fuel : Nat) (out : List Char) (dotdot : Nat), (joinSlash segs).length ≤ fuel →
      cleanLoop false fuel (joinSlash segs) out dotdot =
        (if out.length ≠ 0 then out ++ ['/'] else out) ++ joinSlash segs := by
  induction segs with
  | nil => intro h; exact absurd rfl h
  | cons seg rest ih =>
    intro _ hplain hns fuel out dotdot hfuel
    have hp := hplain seg (List.mem_cons_self _ _)
    have hn := hns seg (List.mem_cons_self _ _)
    have hseg_ne : seg ≠ [] := by
      simp only [plainElem, decide_eq_true_eq] at hp
      exact hp.1
    have hlen : 0 < seg.length := List.length_pos.2 hseg_ne
    cases rest with
    | nil =>
      have hj : joinSlash [seg] = seg := rfl
      rw [hj] at hfuel ⊢
      obtain ⟨f, rfl⟩ : ∃ f, fuel = f + 1 := ⟨fuel - 1, by omega⟩
      have := cleanLoop_elem f seg [] out dotdot hp hn (Or.inl rfl)
      rw [List.append_nil] at this
      rw [this]
      cases f <;> rfl
    | cons seg2 rest2 =>
      rw [joinSlash_cons_cons] at hfuel ⊢
      simp only [List.length_append, List.length_cons] at hfuel
      obtain ⟨f, rfl⟩ : ∃ f, fuel = f + 1 + 1 := ⟨fuel - 2, by omega⟩
      rw [cleanLoop_elem (f + 1) seg ('/' :: joinSlash (seg2 :: rest2)) out dotdot hp hn
        (Or.inr rfl)]
      rw [cleanLoop, if_pos rfl]
      rw [ih (by simp) (fun s hs => hplain s (List.mem_cons_of_mem _ hs))
        (fun s hs => hns s (List.mem_cons_of_mem _ hs)) f _ dotdot (by omega)]
      have hlen2 : ((if out.length ≠ 0 then out ++ ['/'] else out) ++ seg).length ≠ 0 := by
        rw [List.length_append]; omega
      rw [if_pos hlen2]
      simp

/-- Whatever fuel is given beyond the length of what is left to read, the loop of
`path.Clean` returns the same buffer: the fuel of `Clean` is never exhausted. -/
theorem cleanLoop_fuel (rooted : Bool) :
    ∀ (n : Nat) (rest : List Char), rest.length ≤ n →
      ∀ (fuel : Nat) (out : List Char) (dotdot : Nat), rest.length ≤ fuel →
        cleanLoop rooted fuel rest out dotdot = cleanLoop rooted rest.length rest out dotdot := by
  intro n
  induction n with
  | zero =>
    intro rest hrest fuel out dotdot _
    have : rest = [] := List.length_eq_zero.1 (by omega)
    subst this
    cases fuel <;> rfl
  | succ n ih =>
    intro rest hrest fuel out dotdot hfuel
    cases rest with
    | nil => cases fuel <;> rfl
    | cons c cs =>
      obtain ⟨f, rfl⟩ : ∃ f, fuel = f + 1 := ⟨fuel - 1, by simp at hfuel; omega⟩
      simp only [List.length_cons] at hrest hfuel ⊢
      have htail : cs.tail.length ≤ cs.length := by simp
      have hdrop : ((c :: cs).dropWhile (· ≠ '/')).length ≤ cs.length ∨ c = '/' := by
        by_cases hc : c = '/'
        · exact Or.inr hc
        · left
          have h1 : (c :: cs).dropWhile (· ≠ '/') = cs.dropWhile (· ≠ '/') := by
            simp [List.dropWhile, hc]
          rw [h1]
          exact (List.dropWhile_sublist _).length_le
      rw [cleanLoop, cleanLoop]
      by_cases h1 : c = '/'
      · rw [if_pos h1, if_pos h1]
        rw [ih cs (by omega) f out dotdot (by omega), ih cs (by omega) cs.length out dotdot le_rfl]
      · rw [if_neg h1, if_neg h1]
        have hd : ((c :: cs).dropWhile (· ≠ '/')).length ≤ cs.length := by
          rcases hdrop with h | h
          · exact h
          · exact absurd h h1
        split_ifs <;> (try dsimp only) <;> first
          | rw [ih cs (by omega) f _ _ (by omega), ih cs (by omega) cs.length _ _ le_rfl]
          | rw [ih cs.tail (by omega) f _ _ (by omega),
              ih cs.tail (by omega) cs.length _ _ (by omega)]
          | rw [ih _ (by omega) f _ _ (by omega), ih _ (by omega) cs.length _ _ (by omega)]

theorem Join_of_ne_empty (a b : String) (h : a ≠ "") : Join [a, b] = Clean (a ++ "/" ++ b) := by
  unfold Join
  simp [List.dropWhile, h, String.intercalate, String.intercalate.go]

theorem Join_empty_left (b : String) (h : b ≠ "") : Join ["", b] = Clean b := by
  unfold Join
  simp [List.dropWhile, h, String.intercalate, String.intercalate.go]

theorem plainPath_ne_empty (s : String) (h : plainPath s = true) : s ≠ "" := by
  intro hs
  subst hs
  revert h
  decide

theorem plainPath_head (s : String) (h : plainPath s = true) :
    s.toList.head? ≠ some '/' := by
  unfold plainPath at h
  intro hh
  cases hs : s.toList with
  | nil => rw [hs] at hh; cases hh
  | cons c cs =>
    rw [hs] at hh h
    simp only [List.head?_cons, Option.some.injEq] at hh
    rw [splitSlash, if_pos hh] at h
    simp [plainElem] at h

/-- The function `path.Clean` returns a plain relative path unchanged. -/
theorem Clean_plain (s : String) (h : plainPath s = true) : Clean s = s := by
  have hne := plainPath_ne_empty s h
  have hhead := plainPath_head s h
  have hloop : cleanLoop false s.length s.toList [] 0 = s.toList := by
    have := cleanLoop_plain (splitSlash s.toList) (splitSlash_ne_nil _)
      (by
        intro seg hseg
        unfold plainPath at h
        exact List.all_eq_true.1 h seg hseg)
      (noSlash_splitSlash _) s.length [] 0
      (by rw [joinSlash_splitSlash]; rfl)
    rw [joinSlash_splitSlash] at this
    simpa using this
  have hlen : s.toList.length ≠ 0 := by
    intro h0
    apply hne
    have : s.toList = [] := List.length_eq_zero.1 h0
    cases s
    simp_all
  have hloop2 : cleanLoop false s.toList.length s.toList [] 0 = s.toList := hloop
  unfold Clean
  simp only [hne, if_false, hhead, decide_False, Bool.false_eq_true]
  rw [hloop2, if_neg hlen]
  cases s
  rfl

theorem plainPath_join (a b : String) (ha : plainPath a = true) (hb : plainPath b = true) :
    plainPath (a ++ "/" ++ b) = true := by
  unfold plainPath at *
  have : (a ++ "/" ++ b).toList = a.toList ++ '/' :: b.toList := by
    simp [String.toList]
  rw [this, splitSlash_append, List.all_append, ha, hb]
  rfl

/-- The function `path.Join` on a plain prefix and a plain path puts one slash between
them. -/
theorem Join_plain (a b : String) (ha : plainPath a = true) (hb : plainPath b = true) :
    Join [a, b] = a ++ "/" ++ b := by
  rw [Join_of_ne_empty a b (plainPath_ne_empty a ha), Clean_plain _ (plainPath_join a b ha hb)]

/-- The function `path.Join` on the empty prefix and a plain path returns the path. -/
theorem Join_empty_plain (b : String) (hb : plainPath b = true) : Join ["", b] = b := by
  rw [Join_empty_left b (plainPath_ne_empty b hb), Clean_plain b hb]

/-! ## The archive builder -/

theorem included_eq_not_fails (os : OS) (p : Packager) (f : String) :
    included os p f = !fails os p f := by
  unfold included fails
  cases mapGet p.AssetMap f <;>
    by_cases h1 : (os.Stat (filepathJoin [p.AssetDirectory, f])).2 = none <;>
    by_cases h2 : (os.Open (filepathJoin [p.AssetDirectory, f])).2 = none <;>
    simp [h1, h2]

/-- The loop of `Package`, from any state: it appends every filename to the requested list
and the failing ones to the failed list, makes the two archive calls of each included file
whatever errors they return, and never reaches `log.Fatalln`. -/
theorem packageLoop_spec (os : OS) (tWriter : TarWriter) (p : Packager) (pfx : String)
    (filenames : List String) :
    ∀ b : Build,
      (packageLoop os tWriter p pfx filenames b).manifest.ResourcesRequested =
        b.manifest.ResourcesRequested ++ filenames ∧
      (packageLoop os tWriter p pfx filenames b).manifest.ResourcesFailed =
        b.manifest.ResourcesFailed ++ filenames.filter (fails os p) ∧
      (packageLoop os tWriter p pfx filenames b).fatal = b.fatal ∧
      (packageLoop os tWriter p pfx filenames b).closed = b.closed ∧
      (packageLoop os tWriter p pfx filenames b).log.map Call.op =
        b.log.map Call.op ++ (filenames.filter (included os p)).flatMap (fileEntry os p pfx) := by
  induction filenames with
  | nil => intro b; simp [packageLoop]
  | cons f rest ih =>
    intro b
    by_cases hm : mapGet p.AssetMap f = true
    · by_cases hs : (os.Stat (filepathJoin [p.AssetDirectory, f])).2 = none
      · by_cases ho : (os.Open (filepathJoin [p.AssetDirectory, f])).2 = none
        · have hi : included os p f = true := by simp [included, hm, hs, ho]
          have hf : fails os p f = false := by simp [fails, hm, hs, ho]
          rw [packageLoop]
          simp only [hm, hs, ho, ne_eq, not_true_eq_false, if_false, Bool.not_true,
            Bool.false_eq_true]
          refine ⟨?_, ?_, ?_, ?_, ?_⟩
          · rw [(ih _).1]; simp
          · rw [(ih _).2.1]; simp [List.filter_cons, hf]
          · rw [(ih _).2.2.1]
          · rw [(ih _).2.2.2.1]
          · rw [(ih _).2.2.2.2]
            simp [List.filter_cons, hi, fileEntry, fileHeader]
        · have hi : included os p f = false := by simp [included, hm, hs, ho]
          have hf : fails os p f = true := by simp [fails, hm, hs, ho]
          rw [packageLoop]
          simp only [hm, hs, ho, ne_eq, not_true_eq_false, not_false_eq_true, if_false, if_true,
            Bool.not_true, Bool.false_eq_true]
          refine ⟨?_, ?_, ?_, ?_, ?_⟩
          · rw [(ih _).1]; simp [Build.failed]
          · rw [(ih _).2.1]; simp [List.filter_cons, hf, Build.failed]
          · rw [(ih _).2.2.1]; rfl
          · rw [(ih _).2.2.2.1]; rfl
          · rw [(ih _).2.2.2.2]
            simp [List.filter_cons, hi, Build.failed]
      · have hi : included os p f = false := by simp [included, hm, hs]
        have hf : fails os p f = true := by simp [fails, hm, hs]
        rw [packageLoop]
        simp only [hm, hs, ne_eq, not_false_eq_true, if_false, if_true,
          Bool.not_true, Bool.false_eq_true]
        refine ⟨?_, ?_, ?_, ?_, ?_⟩
        · rw [(ih _).1]; simp [Build.failed]
        · rw [(ih _).2.1]; simp [List.filter_cons, hf, Build.failed]
        · rw [(ih _).2.2.1]; rfl
        · rw [(ih _).2.2.2.1]; rfl
        · rw [(ih _).2.2.2.2]
          simp [List.filter_cons, hi, Build.failed]
    · have hm' : mapGet p.AssetMap f = false := by simpa using hm
      have hi : included os p f = false := by simp [included, hm']
      have hf : fails os p f = true := by simp [fails, hm']
      rw [packageLoop]
      simp only [hm', Bool.not_false, if_true]
      refine ⟨?_, ?_, ?_, ?_, ?_⟩
      · rw [(ih _).1]; simp [Build.failed]
      · rw [(ih _).2.1]; simp [List.filter_cons, hf, Build.failed]
      · rw [(ih _).2.2.1]; rfl
      · rw [(ih _).2.2.2.1]; rfl
      · rw [(ih _).2.2.2.2]
        simp [List.filter_cons, hi, Build.failed]

theorem manifest_of_Package (os : OS) (tWriter : TarWriter) (p : Packager) (pfx : String)
    (filenames : List String) :
    (Package os tWriter p pfx filenames).manifest =
      (packageLoop os tWriter p pfx filenames emptyBuild).manifest := by
  unfold Package
  simp only [← emptyBuild.eq_1]
  split_ifs <;> rfl

/-- The calls `Package` makes after its loop: none when serialization fails, the metadata
header otherwise, and the metadata body when the header was written without error. -/
theorem Package_log_eq (os : OS) (tWriter : TarWriter) (p : Packager) (pfx : String)
    (filenames : List String) (b : Build) (mbytes : Bytes)
    (hb : b = packageLoop os tWriter p pfx filenames emptyBuild)
    (hm : mbytes = (os.MarshalIndent b.manifest).1) :
    (Package os tWriter p pfx filenames).log =
      b.log ++
        if (os.MarshalIndent b.manifest).2 ≠ none then []
        else
          Call.mk (.WriteHeader (metadataHeader pfx mbytes))
              (tWriter b.log (.WriteHeader (metadataHeader pfx mbytes))) ::
            if tWriter b.log (.WriteHeader (metadataHeader pfx mbytes)) ≠ none then []
            else [Call.mk (.Write mbytes)
              (tWriter (b.log ++ [Call.mk (.WriteHeader (metadataHeader pfx mbytes))
                (tWriter b.log (.WriteHeader (metadataHeader pfx mbytes)))]) (.Write mbytes))] := by
  have hfatal := (packageLoop_spec os tWriter p pfx filenames emptyBuild).2.2.1
  subst hb hm
  unfold Package metadataHeader
  simp only [← emptyBuild.eq_1]
  rw [if_neg (by rw [hfatal]; simp [emptyBuild])]
  split_ifs <;> simp

theorem log_of_no_error (l : List Call) (h : ∀ c ∈ l, c.err = none) :
    l = (l.map Call.op).map (fun op => Call.mk op none) := by
  induction l with
  | nil => rfl
  | cons c cs ih =>
    have hc : c.err = none := h c (List.mem_cons_self _ _)
    have hcs := ih (fun c' hc' => h c' (List.mem_cons_of_mem _ hc'))
    rw [List.map_cons, List.map_cons, ← hcs, ← hc]

/-- The result of `Package` when serialization and both metadata calls return no error. -/
theorem Package_success (os : OS) (tWriter : TarWriter) (p : Packager) (pfx : String)
    (filenames : List String) (b : Build) (mbytes : Bytes)
    (hb : b = packageLoop os tWriter p pfx filenames emptyBuild)
    (hm : mbytes = (os.MarshalIndent b.manifest).1)
    (hj : (os.MarshalIndent b.manifest).2 = none)
    (hh : tWriter b.log (.WriteHeader (metadataHeader pfx mbytes)) = none)
    (hw : tWriter (b.log ++ [Call.mk (.WriteHeader (metadataHeader pfx mbytes)) none])
      (.Write mbytes) = none) :
    Package os tWriter p pfx filenames =
      { b with
        log := b.log ++
          [Call.mk (.WriteHeader (metadataHeader pfx mbytes)) none, Call.mk (.Write mbytes) none],
        closed := true } := by
  have hfatal := (packageLoop_spec os tWriter p pfx filenames emptyBuild).2.2.1
  subst hb hm
  unfold metadataHeader at hh hw ⊢
  unfold Package
  simp only [← emptyBuild.eq_1]
  rw [if_neg (by rw [hfatal]; simp [emptyBuild])]
  rw [if_neg (by rw [hj]; simp)]
  rw [if_neg (by rw [hh]; simp)]
  rw [hh, if_neg (by rw [hw]; simp), hw]
  simp

/-- C1: when no archive write fails (and the manifest serializes), the calls `Package`
makes on the archive layer are exactly: for each requested path that is indexed true and
whose stat and open both succeed, in request order, the header and body of its file entry;
then the header of the metadata entry (mode 0600, size the byte length of the serialized
manifest) and its body, those bytes. No call is made for a failing path, nothing follows the
metadata entry, and the build ends without a fatal error. -/
theorem Package_entries (os : OS) (tWriter : TarWriter) (p : Packager) (pfx : String)
    (filenames : List String)
    (hjson : (os.MarshalIndent (Package os tWriter p pfx filenames).manifest).2 = none)
    (hwrites : ∀ c ∈ (Package os tWriter p pfx filenames).log, c.err = none) :
    (Package os tWriter p pfx filenames).log =
      ((filenames.filter (included os p)).flatMap (fileEntry os p pfx) ++
        metadataEntry pfx
          (os.MarshalIndent (Package os tWriter p pfx filenames).manifest).1).map
        (fun op => Call.mk op none) ∧
    (Package os tWriter p pfx filenames).fatal = none ∧
    (Package os tWriter p pfx filenames).closed = true := by
  have hspec := packageLoop_spec os tWriter p pfx filenames emptyBuild
  rw [manifest_of_Package] at hjson ⊢
  generalize hb : packageLoop os tWriter p pfx filenames emptyBuild = b at hspec hjson ⊢
  generalize hm : (os.MarshalIndent b.manifest).1 = mbytes
  have hlog := Package_log_eq os tWriter p pfx filenames b mbytes hb.symm hm.symm
  rw [if_neg (by rw [hjson]; simp)] at hlog
  have hh : tWriter b.log (.WriteHeader (metadataHeader pfx mbytes)) = none :=
    hwrites (Call.mk (.WriteHeader (metadataHeader pfx mbytes))
      (tWriter b.log (.WriteHeader (metadataHeader pfx mbytes)))) (by rw [hlog]; simp)
  rw [hh] at hlog
  simp only [ne_eq, not_true_eq_false, if_false] at hlog
  have hw : tWriter (b.log ++ [Call.mk (.WriteHeader (metadataHeader pfx mbytes)) none])
      (.Write mbytes) = none :=
    hwrites (Call.mk (.Write mbytes)
      (tWriter (b.log ++ [Call.mk (.WriteHeader (metadataHeader pfx mbytes)) none])
        (.Write mbytes))) (by rw [hlog]; simp)
  have hP := Package_success os tWriter p pfx filenames b mbytes hb.symm hm.symm hjson hh hw
  have hloop : ∀ c ∈ b.log, c.err = none := by
    intro c hc
    exact hwrites c (by rw [hlog]; exact List.mem_append_left _ hc)
  refine ⟨?_, ?_, ?_⟩
  · rw [hP]
    simp only [List.map_append]
    have h5 := hspec.2.2.2.2
    simp only [emptyBuild, List.map_nil, List.nil_append] at h5
    rw [← h5, ← log_of_no_error _ hloop]
    rfl
  · rw [hP]
    simp only
    rw [hspec.2.2.1]
    rfl
  · rw [hP]

/-- C2: the manifest `Package` builds has requested equal to the request list unchanged
(same order, duplicates kept) and failed equal to that list filtered to the paths that fail
(not indexed as true, or stat fails, or open fails), in request order; so failed is a
subsequence of requested. -/
theorem Package_manifest_lists (os : OS) (tWriter : TarWriter) (p : Packager) (pfx : String)
    (filenames : List String) :
    (Package os tWriter p pfx filenames).manifest.ResourcesRequested = filenames ∧
    (Package os tWriter p pfx filenames).manifest.ResourcesFailed =
      filenames.filter (fun f =>
        !(mapGet p.AssetMap f) ||
        decide ((os.Stat (filepathJoin [p.AssetDirectory, f])).2 ≠ none) ||
        decide ((os.Open (filepathJoin [p.AssetDirectory, f])).2 ≠ none)) ∧
    List.Sublist (Package os tWriter p pfx filenames).manifest.ResourcesFailed
      (Package os tWriter p pfx filenames).manifest.ResourcesRequested := by
  have hspec := packageLoop_spec os tWriter p pfx filenames emptyBuild
  have h1 : (Package os tWriter p pfx filenames).manifest.ResourcesRequested = filenames := by
    rw [manifest_of_Package, hspec.1]; rfl
  have h2 : (Package os tWriter p pfx filenames).manifest.ResourcesFailed =
      filenames.filter (fails os p) := by
    rw [manifest_of_Package, hspec.2.1]; rfl
  refine ⟨h1, h2, ?_⟩
  rw [h1, h2]
  exact List.filter_sublist _

theorem fileEntries_entry (hdr : Header) (file : Bytes) (rest : List Call) :
    fileEntries (Call.mk (.WriteHeader hdr) none :: Call.mk (.Copy file) none :: rest) =
      (hdr, file) :: fileEntries rest := rfl

theorem fileEntries_loop (os : OS) (p : Packager) (pfx : String) (fs : List String)
    (tail : List Call) :
    fileEntries ((fs.flatMap (fileEntry os p pfx)).map (fun op => Call.mk op none) ++ tail) =
      fs.map (fun f =>
        (fileHeader os p pfx f, (os.Open (filepathJoin [p.AssetDirectory, f])).1)) ++
        fileEntries tail := by
  induction fs with
  | nil => simp
  | cons f rest ih =>
    simp only [List.flatMap_cons, fileEntry, List.map_append, List.map_cons, List.map_nil,
      List.cons_append, List.nil_append, List.append_assoc]
    rw [fileEntries_entry, ih]

/-- The calls `Package` makes after its loop hold no file entry. -/
theorem fileEntries_Package (os : OS) (tWriter : TarWriter) (p : Packager) (pfx : String)
    (filenames : List String)
    (hloop : ∀ c ∈ (packageLoop os tWriter p pfx filenames emptyBuild).log, c.err = none) :
    fileEntries (Package os tWriter p pfx filenames).log =
      (filenames.filter (included os p)).map (fun f =>
        (fileHeader os p pfx f, (os.Open (filepathJoin [p.AssetDirectory, f])).1)) := by
  have hspec := (packageLoop_spec os tWriter p pfx filenames emptyBuild).2.2.2.2
  simp only [emptyBuild, List.map_nil, List.nil_append] at hspec
  rw [← emptyBuild.eq_1] at hspec
  rw [Package_log_eq os tWriter p pfx filenames _ _ rfl rfl, log_of_no_error _ hloop, hspec,
    fileEntries_loop]
  split_ifs <;> simp [fileEntries]

/-- C3, as it holds: in a `Package` call in which no archive write fails, the file entries
of the archive are, in order, the entries of the occurrences in the request list of the
paths that are not in failed: one file entry per occurrence. A requested path that is not
in failed has as many file entries as it has occurrences in the request list, at least
one, and exactly one when it is requested once. -/
theorem Package_file_entry_per_occurrence (os : OS) (tWriter : TarWriter) (p : Packager)
    (pfx : String) (filenames : List String)
    (hwrites : ∀ c ∈ (Package os tWriter p pfx filenames).log, c.err = none) :
    fileEntries (Package os tWriter p pfx filenames).log =
      ((Package os tWriter p pfx filenames).manifest.ResourcesRequested.filter
        (fun f => decide (f ∉ (Package os tWriter p pfx filenames).manifest.ResourcesFailed))).map
        (fun f => (fileHeader os p pfx f, (os.Open (filepathJoin [p.AssetDirectory, f])).1)) ∧
    ∀ f ∈ (Package os tWriter p pfx filenames).manifest.ResourcesRequested,
      f ∉ (Package os tWriter p pfx filenames).manifest.ResourcesFailed →
        ((Package os tWriter p pfx filenames).manifest.ResourcesRequested.filter
          (fun g => decide
            (g ∉ (Package os tWriter p pfx filenames).manifest.ResourcesFailed))).count f =
          filenames.count f ∧
        1 ≤ filenames.count f := by
  have hspec := packageLoop_spec os tWriter p pfx filenames emptyBuild
  have h1 : (Package os tWriter p pfx filenames).manifest.ResourcesRequested = filenames := by
    rw [manifest_of_Package, hspec.1]; rfl
  have h2 : (Package os tWriter p pfx filenames).manifest.ResourcesFailed =
      filenames.filter (fails os p) := by
    rw [manifest_of_Package, hspec.2.1]; rfl
  have hloop : ∀ c ∈ (packageLoop os tWriter p pfx filenames emptyBuild).log, c.err = none := by
    intro c hc
    apply hwrites c
    rw [Package_log_eq os tWriter p pfx filenames _ _ rfl rfl]
    exact List.mem_append_left _ hc
  have hfilter : filenames.filter (fun f => decide (f ∉ filenames.filter (fails os p))) =
      filenames.filter (included os p) := by
    apply List.filter_congr
    intro f hf
    rw [included_eq_not_fails]
    cases hfa : fails os p f <;> simp [List.mem_filter, hf, hfa]
  rw [h1, h2, hfilter]
  refine ⟨fileEntries_Package os tWriter p pfx filenames hloop, ?_⟩
  intro f hf hnf
  have hinc : included os p f = true := by
    rw [included_eq_not_fails]
    cases hfa : fails os p f
    · rfl
    · exact absurd (List.mem_filter.2 ⟨hf, hfa⟩) hnf
  exact ⟨List.count_filter hinc, List.count_pos_iff.2 hf⟩

/-- C3 as stated fails for a duplicated request: with `a` requested twice and no archive
write failing, `a` is in requested and not in failed, and the archive holds two file
entries for it, not one. -/
theorem duplicate_request_two_entries :
    (∀ c ∈ (Package demoOS okWriter demoIndex "pkg" ["a", "a"]).log, c.err = none) ∧
    "a" ∈ (Package demoOS okWriter demoIndex "pkg" ["a", "a"]).manifest.ResourcesRequested ∧
    "a" ∉ (Package demoOS okWriter demoIndex "pkg" ["a", "a"]).manifest.ResourcesFailed ∧
    fileEntries (Package demoOS okWriter demoIndex "pkg" ["a", "a"]).log =
      [(⟨"pkg/a", 0o644, 1⟩, [97]), (⟨"pkg/a", 0o644, 1⟩, [97])] ∧
    ((fileEntries (Package demoOS okWriter demoIndex "pkg" ["a", "a"]).log).filter
      (fun e => decide (e.1.Name = "pkg/a"))).length ≠ 1 := by
  decide

/-- C4, what the code does: when the archive layer rejects the header of the first file
entry, or rejects the body of a file that has grown since its stat, `Package` does not end
in `log.Fatalln`: it goes on to the next call, writes the later entry and the metadata
entry, and returns normally. -/
theorem Package_continues_after_entry_write_error :
    Package demoOS firstCallFails demoIndex "pkg" ["a", "b/c"] =
      { manifest := ⟨["a", "b/c"], []⟩,
        log := [⟨.WriteHeader ⟨"pkg/a", 0o644, 1⟩, some "archive/tar: header rejected"⟩,
                ⟨.Copy [97], none⟩,
                ⟨.WriteHeader ⟨"pkg/b/c", 0o644, 2⟩, none⟩,
                ⟨.Copy [98, 99], none⟩,
                ⟨.WriteHeader ⟨"pkg/metadata.json", 0o600, 8⟩, none⟩,
                ⟨.Write [97, 10, 98, 47, 99, 10, 45, 45], none⟩],
        fatal := none, closed := true } ∧
    Package grownOS sizeChecked demoIndex "pkg" ["a", "b/c"] =
      { manifest := ⟨["a", "b/c"], []⟩,
        log := [⟨.WriteHeader ⟨"pkg/a", 0o644, 1⟩, none⟩,
                ⟨.Copy [97, 97], some "archive/tar: write too long"⟩,
                ⟨.WriteHeader ⟨"pkg/b/c", 0o644, 2⟩, none⟩,
                ⟨.Copy [98, 99], none⟩,
                ⟨.WriteHeader ⟨"pkg/metadata.json", 0o600, 8⟩, none⟩,
                ⟨.Write [97, 10, 98, 47, 99, 10, 45, 45], none⟩],
        fatal := none, closed := true } := by
  decide

/-- C5 as stated fails for the empty prefix: `HttpPackage` calls `Package` with the prefix
`""`, and the entry of the included path `a` is then named `a`, not `/a`, and the manifest
entry `metadata.json`, not `/metadata.json`. -/
theorem empty_prefix_names_have_no_slash :
    HttpPackage demoOS okWriter demoIndex ([91, 34, 97, 34, 93], none) =
      some (Package demoOS okWriter demoIndex "" ["a"]) ∧
    included demoOS demoIndex "a" = true ∧
    headerNames (Package demoOS okWriter demoIndex "" ["a"]).log = ["a", "metadata.json"] ∧
    "a" ≠ "" ++ "/" ++ "a" ∧
    "metadata.json" ≠ "" ++ "/metadata.json" := by
  decide

theorem headerNames_eq (log : List Call) :
    headerNames log = headerNames ((log.map Call.op).map (fun op => Call.mk op none)) := by
  unfold headerNames
  induction log with
  | nil => rfl
  | cons c cs ih =>
    simp only [List.map_cons, List.filterMap_cons]
    rw [ih]

theorem headerNames_append (l₁ l₂ : List Call) :
    headerNames (l₁ ++ l₂) = headerNames l₁ ++ headerNames l₂ := by
  unfold headerNames
  exact List.filterMap_append _ _ _

theorem headerNames_loop (os : OS) (p : Packager) (pfx : String) (fs : List String) :
    headerNames ((fs.flatMap (fileEntry os p pfx)).map (fun op => Call.mk op none)) =
      fs.map (fun f => Join [pfx, f]) := by
  induction fs with
  | nil => rfl
  | cons f rest ih =>
    simp only [List.flatMap_cons, List.map_append, headerNames_append, ih]
    rfl

/-- The names of the headers `Package` hands to the archive layer: the joined name of each
included path, in request order, then the joined name of the manifest when it serializes. -/
theorem Package_headerNames (os : OS) (tWriter : TarWriter) (p : Packager) (pfx : String)
    (filenames : List String) :
    headerNames (Package os tWriter p pfx filenames).log =
      (filenames.filter (included os p)).map (fun f => Join [pfx, f]) ++
        if (os.MarshalIndent (Package os tWriter p pfx filenames).manifest).2 = none
        then [Join [pfx, "metadata.json"]] else [] := by
  have hspec := (packageLoop_spec os tWriter p pfx filenames emptyBuild).2.2.2.2
  simp only [emptyBuild, List.map_nil, List.nil_append] at hspec
  rw [← emptyBuild.eq_1] at hspec
  rw [manifest_of_Package, Package_log_eq os tWriter p pfx filenames _ _ rfl rfl,
    headerNames_append, headerNames_eq, hspec, headerNames_loop]
  congr 1
  split_ifs <;> simp_all [headerNames, metadataHeader]

/-- C5, as it holds: the header names `Package` writes are `path.Join(prefix, f)` for each
included path `f`, in request order, followed by `path.Join(prefix, "metadata.json")` for
the manifest. When the prefix and the included paths are plain relative paths (non-empty
elements between single slashes, none of them `.` or `..`), these names are exactly
`prefix + "/" + f` and `prefix + "/metadata.json"`; for the empty prefix, the one
`HttpPackage` passes, they are `f` itself and `metadata.json`, without a leading slash. -/
theorem Package_entry_names (os : OS) (tWriter : TarWriter) (p : Packager) (pfx : String)
    (filenames : List String) :
    (headerNames (Package os tWriter p pfx filenames).log =
      (filenames.filter (included os p)).map (fun f => Join [pfx, f]) ++
        if (os.MarshalIndent (Package os tWriter p pfx filenames).manifest).2 = none
        then [Join [pfx, "metadata.json"]] else []) ∧
    ((pfx = "" ∨ plainPath pfx = true) →
      (∀ f ∈ filenames, included os p f = true → plainPath f = true) →
      headerNames (Package os tWriter p pfx filenames).log =
        (filenames.filter (included os p)).map
          (fun f => if pfx = "" then f else pfx ++ "/" ++ f) ++
          if (os.MarshalIndent (Package os tWriter p pfx filenames).manifest).2 = none
          then [if pfx = "" then "metadata.json" else pfx ++ "/metadata.json"] else []) := by
  refine ⟨Package_headerNames os tWriter p pfx filenames, ?_⟩
  intro hpfx hplain
  rw [Package_headerNames]
  have hmeta : plainPath "metadata.json" = true := by decide
  have hjoin : ∀ f : String, plainPath f = true →
      Join [pfx, f] = if pfx = "" then f else pfx ++ "/" ++ f := by
    intro f hf
    rcases hpfx with h | h
    · rw [if_pos h, h]
      exact Join_empty_plain f hf
    · rw [if_neg (plainPath_ne_empty pfx h)]
      exact Join_plain pfx f h hf
  congr 1
  · apply List.map_congr_left
    intro f hf
    have hf' := List.mem_filter.1 hf
    exact hjoin f (hplain f hf'.1 hf'.2)
  · rw [hjoin "metadata.json" hmeta]
    rcases hpfx with h | h
    · simp [h]
    · simp [plainPath_ne_empty pfx h, String.append_assoc]

/-! ## The theorems at concrete inputs -/

/-- The theorem `Package_entries` at the request `a`, `missing`, `b/c` with prefix `pkg`:
the manifest serializes, no write fails, and the archive holds the entries of `a` and `b/c`
followed by the metadata entry. -/
theorem Package_entries_witness :
    (demoOS.MarshalIndent
      (Package demoOS okWriter demoIndex "pkg" ["a", "missing", "b/c"]).manifest).2 = none ∧
    (∀ c ∈ (Package demoOS okWriter demoIndex "pkg" ["a", "missing", "b/c"]).log,
      c.err = none) ∧
    (Package demoOS okWriter demoIndex "pkg" ["a", "missing", "b/c"]).log =
      [Call.mk (.WriteHeader ⟨"pkg/a", 0o644, 1⟩) none, Call.mk (.Copy [97]) none,
       Call.mk (.WriteHeader ⟨"pkg/b/c", 0o644, 2⟩) none, Call.mk (.Copy [98, 99]) none,
       Call.mk (.WriteHeader ⟨"pkg/metadata.json", 0o600, 24⟩) none,
       Call.mk (.Write (linesMarshal ⟨["a", "missing", "b/c"], ["missing"]⟩).1) none] ∧
    (Package demoOS okWriter demoIndex "pkg" ["a", "missing", "b/c"]).fatal = none ∧
    (Package demoOS okWriter demoIndex "pkg" ["a", "missing", "b/c"]).closed = true :=
  have h := Package_entries demoOS okWriter demoIndex "pkg" ["a", "missing", "b/c"]
    (by decide) (by decide)
  ⟨by decide, by decide, h.1.trans (by decide), h.2.1, h.2.2⟩

/-- The theorem `Package_file_entry_per_occurrence` at the request `a`, `missing`, `a`: no
write fails, and `a`, requested twice and not failed, has two file entries. -/
theorem Package_file_entry_per_occurrence_witness :
    (∀ c ∈ (Package demoOS okWriter demoIndex "pkg" ["a", "missing", "a"]).log,
      c.err = none) ∧
    fileEntries (Package demoOS okWriter demoIndex "pkg" ["a", "missing", "a"]).log =
      [(⟨"pkg/a", 0o644, 1⟩, [97]), (⟨"pkg/a", 0o644, 1⟩, [97])] ∧
    (["a", "missing", "a"] : List String).count "a" = 2 :=
  have h := Package_file_entry_per_occurrence demoOS okWriter demoIndex "pkg"
    ["a", "missing", "a"] (by decide)
  ⟨by decide, h.1.trans (by decide), by decide⟩

/-- The theorem `Package_entry_names` at the plain prefix `pkg` and at the empty prefix. -/
theorem Package_entry_names_witness :
    plainPath "pkg" = true ∧
    (∀ f ∈ ["a", "missing", "b/c"], included demoOS demoIndex f = true → plainPath f = true) ∧
    headerNames (Package demoOS okWriter demoIndex "pkg" ["a", "missing", "b/c"]).log =
      ["pkg/a", "pkg/b/c", "pkg/metadata.json"] ∧
    headerNames (Package demoOS okWriter demoIndex "" ["a", "missing", "b/c"]).log =
      ["a", "b/c", "metadata.json"] :=
  ⟨by decide, by decide,
   ((Package_entry_names demoOS okWriter demoIndex "pkg" ["a", "missing", "b/c"]).2
      (Or.inr (by decide)) (by decide)).trans (by decide),
   ((Package_entry_names demoOS okWriter demoIndex "" ["a", "missing", "b/c"]).2
      (Or.inl rfl) (by decide)).trans (by decide)⟩

/-- The theorem `applyEvent_presence` at a create, a rename and a chmod event. -/
theorem applyEvent_presence_witness :
    (applyEvent demoOS demoIndex ⟨"/r/new", Create⟩).AssetMap "new" = some true ∧
    (applyEvent demoOS demoIndex ⟨"/r/a", Rename⟩).AssetMap "a" = some false ∧
    applyEvent demoOS demoIndex ⟨"/r/a", Chmod⟩ = demoIndex ∧
    (applyEvent demoOS demoIndex ⟨"/r/a", Remove⟩).AssetMap "b/c" = demoIndex.AssetMap "b/c" :=
  ⟨(applyEvent_presence demoOS demoIndex ⟨"/r/new", Create⟩).1 rfl,
   (applyEvent_presence demoOS demoIndex ⟨"/r/a", Rename⟩).2.1 (Or.inr rfl),
   (applyEvent_presence demoOS demoIndex ⟨"/r/a", Chmod⟩).2.2.1
     (by decide) (by decide) (by decide),
   (applyEvent_presence demoOS demoIndex ⟨"/r/a", Remove⟩).2.2.2 "b/c" (by decide)⟩

/-- The theorem `keys_never_deleted` at the key `a`: it is still a key after a create and
a chmod event, and has value false once a remove event for it follows. -/
theorem keys_never_deleted_witness :
    mapHas demoIndex.AssetMap "a" = true ∧
    mapHas (runEvents demoOS demoIndex
      [⟨"/r/new", Create⟩, ⟨"/r/a", Chmod⟩]).AssetMap "a" = true ∧
    (runEvents demoOS demoIndex
      ([⟨"/r/new", Create⟩, ⟨"/r/a", Chmod⟩] ++ [⟨"/r/a", Remove⟩])).AssetMap "a" =
        some false :=
  have h := keys_never_deleted demoOS demoIndex [⟨"/r/new", Create⟩, ⟨"/r/a", Chmod⟩] "a" rfl
  ⟨rfl, h.1, (h.2 ⟨"/r/a", Remove⟩ (Or.inl rfl) (by decide)).1⟩

/-- The theorem `New_index` over the tree with the files `a` and `b/c`: the construction
succeeds, `a` and `b/c` look up true, `nonexistent` looks up false, and neither the
directory `b` nor the root `.` is a key. -/
theorem New_index_witness :
    New demoOS "/r" = .ok walkedIndex ∧
    (∀ e₁ ∈ demoOS.Walk (demoOS.Abs "/r"), ∀ e₂ ∈ demoOS.Walk (demoOS.Abs "/r"),
      demoOS.Rel (demoOS.Abs "/r") e₁.1 = demoOS.Rel (demoOS.Abs "/r") e₂.1 →
        e₁.2.IsDir = e₂.2.IsDir) ∧
    walkedIndex.AssetMap "a" = some true ∧
    walkedIndex.AssetMap "b/c" = some true ∧
    AssetExists walkedIndex "a" = true ∧
    AssetExists walkedIndex "b/c" = true ∧
    AssetExists walkedIndex "nonexistent" = false ∧
    walkedIndex.AssetMap "b" = none ∧
    walkedIndex.AssetMap "." = none :=
  have h := New_index demoOS "/r" walkedIndex rfl (by decide)
  have ha : walkedIndex.AssetMap "a" = some true :=
    (h.1 "a").2 ⟨("/r/a", ⟨false, 0o644, 1⟩), by decide, rfl, by decide⟩
  have hbc : walkedIndex.AssetMap "b/c" = some true :=
    (h.1 "b/c").2 ⟨("/r/b/c", ⟨false, 0o644, 2⟩), by decide, rfl, by decide⟩
  ⟨rfl, by decide, ha, hbc, by simp [AssetExists, mapGet, ha], by simp [AssetExists, mapGet, hbc],
   h.2.2.2 "nonexistent" (by decide),
   h.2.2.1 ("/r/b", ⟨true, 0o755, 4096⟩) (by decide) rfl,
   h.2.2.1 ("/r", ⟨true, 0o755, 4096⟩) (by decide) rfl⟩

/-- The theorem `combined_op_leaves_map_unchanged` at a `Create|Write` event for a new
file: the index is unchanged and the new path does not look up true. -/
theorem combined_op_leaves_map_unchanged_witness :
    applyEvent demoOS demoIndex ⟨"/r/new", Create ||| Write⟩ = demoIndex ∧
    AssetExists (applyEvent demoOS demoIndex ⟨"/r/new", Create ||| Write⟩) "new" = false ∧
    (applyEvent demoOS demoIndex ⟨"/r/new", Create⟩ ≠ demoIndex →
      Create = Create ∨ Create = Remove ∨ Create = Rename) :=
  have h := combined_op_leaves_map_unchanged demoOS demoIndex "/r/new"
  ⟨h.2.2.1, (h.2.2.2.1 "new").trans (by decide), h.1 ⟨"/r/new", Create⟩⟩


end AssetPackager
